import Mathlib

/-!
Verification development for the semantic-map inference program
(regier-adapted, src/code/code.py).  The program infers an undirected
graph over a fixed concept vocabulary: for each of 1000 bootstrap
iterations it resamples the language list, builds per-iteration
constraints, greedily adds edges maximizing a connectivity objective,
and aggregates edge frequencies; a final thresholding pass builds the
output map.  Every definition below mirrors a specific place in the
source file, noted in its doc comment.
-/

/-- Fixed global list of the twelve source languages (source line 22). -/
def languages : List String :=
  ["Rapanui", "Lezgian", "Sherbro", "Nuer", "Palula", "Mauwake", "Mawng",
   "Yir-Yoront", "Cusco Quechua", "Paraguayan Guarani", "Lakota",
   "Passamaquoddy-melecite"]

/-- Fixed global list of the twelve concepts (source line 23). -/
def nodes : List String :=
  ["LOVE", "HAPPYNESS", "ANGER", "MISSING", "FEAR", "WORRY", "SHAME",
   "SURPRISE", "TRUST", "RESPECT", "SADNESS", "PITY"]

/-- An undirected graph in the style of networkx: a node list without
duplicates and an edge list storing each undirected edge once, in the
orientation in which it was added. -/
structure SGraph (α : Type) where
  nodes : List α
  edges : List (α × α)
deriving DecidableEq

variable {α : Type} [DecidableEq α]

/-- Membership test for an undirected edge, in either orientation
(networkx has_edge / adjacency). -/
def hasEdge (g : SGraph α) (u v : α) : Bool :=
  g.edges.any (fun q => decide ((q.1 = u ∧ q.2 = v) ∨ (q.1 = v ∧ q.2 = u)))

/-- networkx add_node: appends the node unless it is already present
(source lines 103-105 guard with has_node). -/
def addNode (g : SGraph α) (n : α) : SGraph α :=
  if n ∈ g.nodes then g else ⟨g.nodes ++ [n], g.edges⟩

/-- networkx add_edge on an unweighted graph: silently adds missing
endpoints, then appends the edge unless it is already present. -/
def addEdge (g : SGraph α) (e : α × α) : SGraph α :=
  let g1 := addNode (addNode g e.1) e.2
  if hasEdge g1 e.1 e.2 then g1 else ⟨g1.nodes, g1.edges ++ [e]⟩

/-- networkx remove_edge: deletes the undirected edge, matching either
orientation; nodes are untouched. -/
def removeEdge (g : SGraph α) (e : α × α) : SGraph α :=
  ⟨g.nodes, g.edges.filter (fun q => !decide (q = e ∨ q = (e.2, e.1)))⟩

/-- Breadth-first reachable set: grows the visited list by the
neighbors of the frontier until no new node appears or the fuel runs
out.  Fuel at least the number of nodes of the explored subgraph is
enough for the search to complete. -/
def reach (adj : α → List α) : Nat → List α → List α → List α
  | 0, _, visited => visited
  | Nat.succ fuel, frontier, visited =>
    let newNodes := ((frontier.map adj).flatten).filter (fun y => !decide (y ∈ visited))
    if newNodes.isEmpty then visited
    else reach adj fuel newNodes (visited ++ newNodes)

/-- Number of connected components of the (sub)graph whose node list is
given and whose adjacency is adj: repeatedly take the first remaining
node, remove everything reachable from it, and count.  The fuel
argument makes the recursion structural; calling it with the length of
the node list (as nccSub does) always suffices, because each round
drops at least the head. -/
def countComp (adj : α → List α) : Nat → List α → Nat
  | _, [] => 0
  | 0, _ :: _ => 0
  | Nat.succ k, x :: rest =>
    1 + countComp adj k
      (rest.filter (fun y => !decide (y ∈ reach adj (Nat.succ k) [x] [x])))

/-- Neighbors of y inside the induced subgraph with node list sub. -/
def adjIn (g : SGraph α) (sub : List α) (y : α) : List α :=
  sub.filter (fun z => hasEdge g y z)

/-- networkx number_connected_components of G.subgraph(c) (source line
41): the subgraph induced by the members of c that are nodes of g,
with the edges of g between them.  An empty induced subgraph has zero
components. -/
def nccSub (g : SGraph α) (c : List α) : Nat :=
  let sub := g.nodes.filter (fun n => decide (n ∈ c))
  countComp (adjIn g sub) sub.length sub

/-- The objective function C of source lines 37-43.  In the source it
is written def C(g, s) but the body reads the module-global graph G:
the global is made explicit here as the first argument gG, and the
declared parameter g is, exactly as in the source, never used by the
body.  For each constraint c in s the term 1 - ncc is accumulated,
where ncc is the number of connected components of the subgraph of the
global graph induced by c. -/
def C (gG : SGraph α) (g : SGraph α) (s : List (List α)) : Int :=
  s.foldl (fun total c => total + (1 - (nccSub gG c : Int))) 0

/-- Empty graph, used as a concrete input. -/
def gEmpty : SGraph String := ⟨[], []⟩

/-- All ordered pairs (seq i, seq j) with i < j, in the enumeration
order of the source generator allpairs (source lines 29-33). -/
def allpairs : List α → List (α × α)
  | [] => []
  | x :: xs => xs.map (fun y => (x, y)) ++ allpairs xs

/-- Node-adding pass of the initial-graph construction: every member
of every constraint becomes a node of G (source lines 101-105). -/
def addNodesOf (g : SGraph α) (t : List α) : SGraph α :=
  t.foldl addNode g

/-- The initial per-iteration graph: all constraint members as nodes,
no edges (source lines 98-105). -/
def buildGraph (T : List (List α)) : SGraph α :=
  T.foldl addNodesOf ⟨[], []⟩

/-- Appending a candidate pair to PossE unless it is already present
in either orientation (source lines 108-112). -/
def poolInsert (acc : List (α × α)) (p : α × α) : List (α × α) :=
  if p ∈ acc ∨ (p.2, p.1) ∈ acc then acc else acc ++ [p]

/-- The candidate edge pool PossE: the deduplicated pairs co-occurring
in some constraint, in first-appearance order (source lines 99,
106-112). -/
def buildPool (T : List (List α)) : List (α × α) :=
  T.foldl (fun acc t => (allpairs t).foldl poolInsert acc) []

/-- State carried through the inner candidate-evaluation loop of one
greedy step: the (global, mutated and restored) graph together with
the running max_score and max_edge variables (source lines 121-131).
maxEdge is an Option because max_edge starts the program unbound. -/
structure EvalState (α : Type) where
  g : SGraph α
  maxScore : Int
  maxEdge : Option (α × α)

/-- One candidate evaluation of the greedy step (source lines 125-131):
tentatively add e to the graph, recompute the objective against the
pre-step value objfn, remove e again, and keep (score, e) when score
strictly exceeds the running maximum. -/
def evalCandidate (T : List (List α)) (objfn : Int) (st : EvalState α) (e : α × α) :
    EvalState α :=
  let g1 := addEdge st.g e
  let sc := C g1 g1 T - objfn
  let g2 := removeEdge g1 e
  if st.maxScore < sc then ⟨g2, sc, some e⟩ else ⟨g2, st.maxScore, st.maxEdge⟩

/-- The inner for-loop over the candidate pool (source lines 124-131). -/
def evalCandidates (T : List (List α)) (objfn : Int) (st : EvalState α)
    (pool : List (α × α)) : EvalState α :=
  pool.foldl (evalCandidate T objfn) st

/-- Marginal gain of candidate e against graph g: the objective after
tentatively adding e, minus the objective of g itself. -/
def gain (g : SGraph α) (T : List (List α)) (e : α × α) : Int :=
  C (addEdge g e) (addEdge g e) T - C g g T

/-- Pure description of the running-maximum computation performed by
the inner loop over the pool: strict improvement updates the pair. -/
def foldEval (f : α × α → Int) (acc : Int × Option (α × α)) (pool : List (α × α)) :
    Int × Option (α × α) :=
  pool.foldl (fun a e => if a.1 < f e then (f e, some e) else a) acc

/-- One iteration of the main while-loop body after the shuffle
(source lines 121-135): evaluate all candidates with max_score reset
to 0 and max_edge kept from before (prev), then commit max_edge.
Returns none where Python raises: max_edge still unbound after the
scan (NameError at line 132), or max_edge absent from PossE so that
PossE.remove fails (ValueError at line 135).  On success returns the
grown graph, the shrunken pool and the committed edge. -/
def greedyStep (T : List (List α)) (g : SGraph α) (pool : List (α × α))
    (prev : Option (α × α)) : Option (SGraph α × List (α × α) × (α × α)) :=
  let objfn := C g g T
  let st := evalCandidates T objfn ⟨g, 0, prev⟩ pool
  match st.maxEdge with
  | none => none
  | some e => if e ∈ pool then some (addEdge st.g e, pool.erase e, e) else none

/-- The main while-loop (source lines 119-136): while the objective is
negative, shuffle the pool (the shuffle outcome is supplied by shuf,
indexed by the step counter), run one greedy step and continue.  Fuel
bounds the number of steps; none models a crash or a failure to
terminate within the fuel.  The final max_edge memory is returned so a
caller can thread it across bootstrap iterations, as the module-level
variable persists in the source. -/
def greedyLoopShuf (T : List (List α)) (shuf : Nat → List (α × α) → List (α × α)) :
    Nat → Nat → SGraph α → List (α × α) → Option (α × α) →
    Option (SGraph α × List (α × α) × Option (α × α))
  | 0, _, g, pool, prev =>
    if C g g T < 0 then none else some (g, pool, prev)
  | Nat.succ fuel, step, g, pool, prev =>
    if C g g T < 0 then
      match greedyStep T g (shuf step pool) prev with
      | none => none
      | some (g2, pool2, e) => greedyLoopShuf T shuf fuel (step + 1) g2 pool2 (some e)
    else some (g, pool, prev)

/-- Canonicalization of one discovered edge against the key set of the
frequency table (source lines 140-143): the key is the edge itself
when present, otherwise the reversed edge; the reversed-edge branch
performs no membership check in the source, so a pair absent in both
orientations is a KeyError, modelled as none. -/
def bumpTarget (keys : List (α × α)) (e : α × α) : Option (α × α) :=
  if e ∈ keys then some e
  else if (e.2, e.1) ∈ keys then some (e.2, e.1) else none

/-- Increment of the table entry at key k (source lines 141, 143). -/
def bump (d : List ((α × α) × Nat)) (k : α × α) : List ((α × α) × Nat) :=
  d.map (fun kc => if kc.1 = k then (kc.1, kc.2 + 1) else kc)

/-- Processing of one edge of an iteration graph into the table. -/
def aggStep (od : Option (List ((α × α) × Nat))) (e : α × α) :
    Option (List ((α × α) × Nat)) :=
  od.bind (fun d =>
    match bumpTarget (d.map Prod.fst) e with
    | some k => some (bump d k)
    | none => none)

/-- The per-iteration aggregation loop (source lines 139-143): each
edge of the converged iteration graph bumps its canonical entry; an
out-of-vocabulary pair aborts with none (KeyError in the source). -/
def aggregateEdges (d : List ((α × α) × Nat)) (es : List (α × α)) :
    Option (List ((α × α) × Nat)) :=
  es.foldl aggStep (some d)

/-- Aggregation over a whole list of iteration edge sets. -/
def aggregateIters (d : List ((α × α) × Nat)) (its : List (List (α × α))) :
    Option (List ((α × α) × Nat)) :=
  its.foldl (fun od es => od.bind (fun d2 => aggregateEdges d2 es)) (some d)

/-- An undirected graph with a rational weight per edge, for the final
map (source lines 148-156).  Weights model the Python division
frequency / 200 exactly. -/
structure SGraphW (α : Type) where
  nodes : List α
  edges : List ((α × α) × ℚ)
deriving DecidableEq

/-- networkx add_node on the weighted graph. -/
def addNodeW (g : SGraphW α) (n : α) : SGraphW α :=
  if n ∈ g.nodes then g else ⟨g.nodes ++ [n], g.edges⟩

/-- Edge membership on the weighted graph, either orientation. -/
def hasEdgeW (g : SGraphW α) (u v : α) : Bool :=
  g.edges.any (fun q => decide ((q.1.1 = u ∧ q.1.2 = v) ∨ (q.1.1 = v ∧ q.1.2 = u)))

/-- networkx add_edge with a weight attribute: missing endpoints are
added, an existing edge has its weight overwritten, a new edge is
appended. -/
def addEdgeW (g : SGraphW α) (p : α × α) (w : ℚ) : SGraphW α :=
  let g1 := addNodeW (addNodeW g p.1) p.2
  if hasEdgeW g1 p.1 p.2 then
    ⟨g1.nodes, g1.edges.map (fun q =>
      if (q.1.1 = p.1 ∧ q.1.2 = p.2) ∨ (q.1.1 = p.2 ∧ q.1.2 = p.1) then (q.1, w) else q)⟩
  else ⟨g1.nodes, g1.edges ++ [(p, w)]⟩

/-- Body of the final-graph loop (source lines 151-156): entries below
250 are skipped; the others become edges weighted by frequency / 200;
entries above 500 are additionally recorded as important links. -/
def finalizeStep (acc : SGraphW String × List (String × String))
    (kc : (String × String) × Nat) : SGraphW String × List (String × String) :=
  if kc.2 < 250 then acc
  else (addEdgeW acc.1 kc.1 ((kc.2 : ℚ) / 200),
        if 500 < kc.2 then acc.2 ++ [kc.1] else acc.2)

/-- Final graph creation (source lines 147-156): a fresh graph over
the fixed global concept list, filled from the frequency table. -/
def finalize (d : List ((String × String) × Nat)) :
    SGraphW String × List (String × String) :=
  d.foldl finalizeStep (⟨nodes, []⟩, [])

/-- Result of the command-line handling of source lines 65-68 together
with the downstream use of sys.argv at line 87.  The source never
calls sys.exit: usageShown records whether the usage hint is printed
(argv length differing from 2), aborted is always false because
execution falls through to the bootstrap loop, and fileRef is the
element the later open(sys.argv[1]) call will read, none meaning an
IndexError there. -/
structure CliResult where
  usageShown : Bool
  aborted : Bool
  fileRef : Option String
deriving DecidableEq

/-- Command-line argument handling of the source (lines 65-68, 87). -/
def cliStartup (argv : List String) : CliResult :=
  { usageShown := decide (argv.length ≠ 2), aborted := false, fileRef := argv.get? 1 }

/-- External randomness consumed by a run: draws i is the output of
random.choices(languages, k=12) in bootstrap iteration i (source line
80), and shuffles i j is the permutation random.shuffle applies to the
pool at step j of iteration i (source line 123). -/
structure Randomness where
  draws : Nat → List String
  shuffles : Nat → Nat → List (String × String) → List (String × String)

/-- Construction of the constraint list T for one iteration (source
lines 86-96): each corpus line (language, lemma, senses) contributes
its sense list once per occurrence of its language in the draw L. -/
def buildT (corpus : List (String × String × List String)) (L : List String) :
    List (List String) :=
  corpus.foldl (fun T line => T ++ List.replicate (L.count line.1) line.2.2) []

/-- One bootstrap iteration (source lines 79-143): build T, the graph
and the pool, run the greedy loop, and aggregate the surviving edges.
prev is the module-level max_edge memory carried across iterations. -/
def runIteration (corpus : List (String × String × List String)) (r : Randomness)
    (i : Nat) (prev : Option (String × String)) (d : List ((String × String) × Nat)) :
    Option (List ((String × String) × Nat) × Option (String × String)) :=
  let T := buildT corpus (r.draws i)
  let g0 := buildGraph T
  let pool := buildPool T
  match greedyLoopShuf T (r.shuffles i) (pool.length + 1) 0 g0 pool prev with
  | none => none
  | some (gfin, _, prev2) => (aggregateEdges d gfin.edges).map (fun d2 => (d2, prev2))

/-- The whole program on an already-parsed corpus (source lines 70-156):
1000 bootstrap iterations threading the frequency table, then the
final thresholding.  none models a crash in any iteration. -/
def runProgram (corpus : List (String × String × List String)) (r : Randomness) :
    Option (SGraphW String × List (String × String)) :=
  (((List.range 1000).foldl
      (fun acc i => acc.bind (fun dp => runIteration corpus r i dp.2 dp.1))
      (some ((allpairs nodes).map (fun k => (k, 0)), none))).map
    (fun dp => finalize dp.1))

/-- Graph with the two nodes LOVE and WORRY and no edges, a concrete
optimizer state exercising the no-improving-candidate situation. -/
def gLW : SGraph String := ⟨["LOVE", "WORRY"], []⟩

/-! Helper lemmas about the objective function. -/

theorem foldl_add_int {β : Type} (f : β → Int) (l : List β) (a : Int) :
    l.foldl (fun t c => t + f c) a = a + (l.map f).sum := by
  induction l generalizing a with
  | nil => simp
  | cons x xs ih => simp [ih (a + f x), add_assoc]

theorem C_eq_sum (gG g : SGraph α) (S : List (List α)) :
    C gG g S = (S.map (fun c => 1 - (nccSub gG c : Int))).sum := by
  simpa using foldl_add_int (fun c => 1 - (nccSub gG c : Int)) S 0

theorem sum_nonpos_int (l : List Int) (h : ∀ x ∈ l, x ≤ 0) : l.sum ≤ 0 := by
  induction l with
  | nil => simp
  | cons x xs ih =>
    have hx := h x (List.mem_cons_self _ _)
    have hxs := ih (fun y hy => h y (List.mem_cons_of_mem _ hy))
    simp only [List.sum_cons]
    omega

theorem sum_eq_zero_iff_of_nonpos (l : List Int) (h : ∀ x ∈ l, x ≤ 0) :
    l.sum = 0 ↔ ∀ x ∈ l, x = 0 := by
  induction l with
  | nil => simp
  | cons x xs ih =>
    have hx := h x (List.mem_cons_self _ _)
    have hxs : ∀ y ∈ xs, y ≤ 0 := fun y hy => h y (List.mem_cons_of_mem _ hy)
    have hs := sum_nonpos_int xs hxs
    simp only [List.sum_cons, List.mem_cons]
    constructor
    · intro h0
      have hx0 : x = 0 := by omega
      have hxs0 : xs.sum = 0 := by omega
      exact fun y hy => hy.elim (fun e => e ▸ hx0) ((ih hxs).1 hxs0 y)
    · intro hall
      have hx0 := hall x (Or.inl rfl)
      have : xs.sum = 0 := (ih hxs).2 (fun y hy => hall y (Or.inr hy))
      omega

theorem mem_reach (adj : α → List α) (x : α) (fuel : Nat) :
    ∀ (frontier visited : List α), x ∈ visited → x ∈ reach adj fuel frontier visited := by
  induction fuel with
  | zero => intro frontier visited h; simpa [reach] using h
  | succ k ih =>
    intro frontier visited h
    simp only [reach]
    split
    · exact h
    · exact ih _ _ (List.mem_append_left _ h)

theorem one_le_nccSub (g : SGraph α) (c : List α) (x : α)
    (hx : x ∈ c) (hn : x ∈ g.nodes) : 1 ≤ nccSub g c := by
  have hmem : x ∈ g.nodes.filter (fun n => decide (n ∈ c)) := by
    simp [List.mem_filter, hn, hx]
  rcases hsub : g.nodes.filter (fun n => decide (n ∈ c)) with _ | ⟨y, ys⟩
  · rw [hsub] at hmem; simp at hmem
  · simp only [nccSub, hsub, List.length_cons, countComp]
    omega

theorem nccSub_singleton (g : SGraph α) (x : α) (hn : x ∈ g.nodes) :
    nccSub g [x] = 1 := by
  have hall : ∀ z ∈ g.nodes.filter (fun n => decide (n ∈ [x])), z = x := by
    intro z hz
    have := (List.mem_filter.1 hz).2
    simpa using this
  have hmem : x ∈ g.nodes.filter (fun n => decide (n ∈ [x])) := by
    simp [List.mem_filter, hn]
  rcases hsub : g.nodes.filter (fun n => decide (n ∈ [x])) with _ | ⟨y, ys⟩
  · rw [hsub] at hmem; simp at hmem
  · rw [hsub] at hall
    have hy : y = x := hall y (List.mem_cons_self _ _)
    have hys : ∀ z ∈ ys, z = x := fun z hz => hall z (List.mem_cons_of_mem _ hz)
    simp only [nccSub, hsub, List.length_cons, countComp]
    have hxin : x ∈ reach (adjIn g (y :: ys)) (ys.length + 1) [y] [y] := by
      apply mem_reach
      simp [hy]
    have hfilter : ys.filter
        (fun z => !decide (z ∈ reach (adjIn g (y :: ys)) (ys.length + 1) [y] [y])) = [] := by
      apply List.filter_eq_nil_iff.2
      intro z hz
      have := hys z hz
      subst this
      simp [hxin]
    rw [hfilter]
    rcases ys with _ | ⟨w, ws⟩ <;> simp [countComp]

/-- C1 counterexample: the source objective is not always nonpositive.
A constraint with an empty concept set induces an empty subgraph with
zero connected components, so it contributes 1 - 0 = 1, and the score
of the empty graph against the single empty observation is 1 > 0,
refuting the claimed bound as well as the claimed zero contribution of
zero-concept observations. -/
theorem score_empty_observation_positive :
    C gEmpty gEmpty [([] : List String)] = 1 ∧
    ¬ C gEmpty gEmpty [([] : List String)] ≤ 0 := by decide

/-- C1 (amended): for every graph and every observation list in which
each observation is non-empty and mentions only nodes of the graph,
the objective is nonpositive, it is zero exactly when every
observation induces a single connected component, and an observation
with exactly one concept always contributes zero. -/
theorem score_nonpositive_iff_connected (g : SGraph α) (S : List (List α))
    (hS : ∀ o ∈ S, o ≠ [] ∧ ∀ x ∈ o, x ∈ g.nodes) :
    C g g S ≤ 0 ∧
    (C g g S = 0 ↔ ∀ o ∈ S, nccSub g o = 1) ∧
    (∀ o ∈ S, o.length = 1 → (1 : Int) - (nccSub g o : Int) = 0) := by
  have hterm : ∀ t ∈ S.map (fun c => 1 - (nccSub g c : Int)), t ≤ 0 := by
    intro t ht
    rcases List.mem_map.1 ht with ⟨o, ho, rfl⟩
    rcases hS o ho with ⟨hne, hsub⟩
    rcases o with _ | ⟨x, xs⟩
    · exact absurd rfl hne
    · have h1 := one_le_nccSub g (x :: xs) x (List.mem_cons_self _ _)
        (hsub x (List.mem_cons_self _ _))
      omega
  have hsum := sum_nonpos_int _ hterm
  have hzero := sum_eq_zero_iff_of_nonpos _ hterm
  refine ⟨by rw [C_eq_sum]; exact hsum, ?_, ?_⟩
  · rw [C_eq_sum, hzero]
    constructor
    · intro h o ho
      have h0 := h _ (List.mem_map_of_mem _ ho)
      rcases hS o ho with ⟨hne, hsub⟩
      rcases o with _ | ⟨x, xs⟩
      · exact absurd rfl hne
      · have h1 := one_le_nccSub g (x :: xs) x (List.mem_cons_self _ _)
          (hsub x (List.mem_cons_self _ _))
        omega
    · intro h t ht
      rcases List.mem_map.1 ht with ⟨o, ho, rfl⟩
      have := h o ho
      omega
  · intro o ho hlen
    rcases o with _ | ⟨x, xs⟩
    · simp at hlen
    · rcases xs with _ | _
      · have hx := (hS _ ho).2 x (List.mem_cons_self _ _)
        rw [nccSub_singleton g x hx]
        omega
      · simp at hlen

/-- C1 witness: a two-node graph with no edges and a single two-concept
observation satisfies the hypotheses; the amended statement holds
there. -/
theorem score_nonpositive_iff_connected_witness :
    (∀ o ∈ [["LOVE", "FEAR"]], o ≠ [] ∧ ∀ x ∈ o, x ∈ (⟨["LOVE", "FEAR"], []⟩ : SGraph String).nodes) ∧
    (C (⟨["LOVE", "FEAR"], []⟩ : SGraph String) ⟨["LOVE", "FEAR"], []⟩ [["LOVE", "FEAR"]] ≤ 0 ∧
     (C (⟨["LOVE", "FEAR"], []⟩ : SGraph String) ⟨["LOVE", "FEAR"], []⟩ [["LOVE", "FEAR"]] = 0 ↔
        ∀ o ∈ [["LOVE", "FEAR"]], nccSub (⟨["LOVE", "FEAR"], []⟩ : SGraph String) o = 1) ∧
     (∀ o ∈ [["LOVE", "FEAR"]], o.length = 1 →
        (1 : Int) - (nccSub (⟨["LOVE", "FEAR"], []⟩ : SGraph String) o : Int) = 0)) :=
  ⟨by decide, score_nonpositive_iff_connected _ _ (by decide)⟩

/-- C10: the source objective C computes connected components on the
module-global graph (here the explicit first argument) and never reads
its declared graph parameter, so its value is the same for any two
graph arguments. -/
theorem C_ignores_graph_argument (gG g1 g2 : SGraph α) (s : List (List α)) :
    C gG g1 s = C gG g2 s := rfl

/-! Helper lemmas about one greedy step. -/

theorem removeEdge_addEdge (g : SGraph α) (e : α × α)
    (h1 : e.1 ∈ g.nodes) (h2 : e.2 ∈ g.nodes) (h3 : hasEdge g e.1 e.2 = false) :
    removeEdge (addEdge g e) e = g := by
  have hg1 : addNode (addNode g e.1) e.2 = g := by simp [addNode, h1, h2]
  have hany : ∀ q ∈ g.edges, ¬((q.1 = e.1 ∧ q.2 = e.2) ∨ (q.1 = e.2 ∧ q.2 = e.1)) := by
    simpa [hasEdge, List.any_eq_false] using h3
  have hkeep : ∀ q ∈ g.edges, (!decide (q = e ∨ q = (e.2, e.1))) = true := by
    intro q hq
    have hq3 := hany q hq
    simp only [Bool.not_eq_eq_eq_not, Bool.not_true, decide_eq_false_iff_not]
    rintro (rfl | rfl)
    · exact hq3 (Or.inl ⟨rfl, rfl⟩)
    · exact hq3 (Or.inr ⟨rfl, rfl⟩)
  simp only [addEdge, hg1, h3, Bool.false_eq_true, if_false, removeEdge,
    List.filter_append]
  have h4 : (!decide (e = e ∨ e = (e.2, e.1))) = false := by simp
  rw [List.filter_eq_self.2 hkeep]
  simp [h4]

theorem evalCandidates_spec (T : List (List α)) (objfn : Int) (g : SGraph α) :
    ∀ (pool : List (α × α)) (ms : Int) (me : Option (α × α)),
      (∀ e ∈ pool, e.1 ∈ g.nodes ∧ e.2 ∈ g.nodes ∧ hasEdge g e.1 e.2 = false) →
      evalCandidates T objfn ⟨g, ms, me⟩ pool =
        ⟨g, (foldEval (fun e => C (addEdge g e) (addEdge g e) T - objfn) (ms, me) pool).1,
            (foldEval (fun e => C (addEdge g e) (addEdge g e) T - objfn) (ms, me) pool).2⟩ := by
  intro pool
  induction pool with
  | nil => intro ms me _; rfl
  | cons e rest ih =>
    intro ms me hc
    obtain ⟨he1, he2, he3⟩ := hc e (List.mem_cons_self _ _)
    have hrest : ∀ x ∈ rest, x.1 ∈ g.nodes ∧ x.2 ∈ g.nodes ∧ hasEdge g x.1 x.2 = false :=
      fun x hx => hc x (List.mem_cons_of_mem _ hx)
    have hre : removeEdge (addEdge g e) e = g := removeEdge_addEdge g e he1 he2 he3
    simp only [evalCandidates, List.foldl_cons, evalCandidate, hre]
    by_cases h : ms < C (addEdge g e) (addEdge g e) T - objfn
    · rw [if_pos h]
      have h2 := ih (C (addEdge g e) (addEdge g e) T - objfn) (some e) hrest
      simp only [evalCandidates] at h2
      rw [h2]
      simp only [foldEval, List.foldl_cons, if_pos h]
    · rw [if_neg h]
      have h2 := ih ms me hrest
      simp only [evalCandidates] at h2
      rw [h2]
      simp only [foldEval, List.foldl_cons, if_neg h]

theorem foldEval_spec (f : α × α → Int) :
    ∀ (pool : List (α × α)) (m : Int) (me : Option (α × α)),
      (foldEval f (m, me) pool = (m, me) ∧ ∀ x ∈ pool, f x ≤ m) ∨
      (∃ l1 e l2, pool = l1 ++ e :: l2 ∧ foldEval f (m, me) pool = (f e, some e) ∧
        m < f e ∧ (∀ x ∈ l1, f x < f e) ∧ (∀ x ∈ pool, f x ≤ f e)) := by
  intro pool
  induction pool with
  | nil => intro m me; exact Or.inl ⟨rfl, by simp⟩
  | cons a rest ih =>
    intro m me
    by_cases h : m < f a
    · have hstep : foldEval f (m, me) (a :: rest) = foldEval f (f a, some a) rest := by
        simp [foldEval, h]
      rcases ih (f a) (some a) with ⟨heq, hle⟩ | ⟨l1, e, l2, hsplit, heq, hlt, hl1, hle⟩
      · refine Or.inr ⟨[], a, rest, rfl, ?_, h, by simp, ?_⟩
        · rw [hstep, heq]
        · intro x hx
          rcases List.mem_cons.1 hx with rfl | hx
          · exact le_refl _
          · exact hle x hx
      · refine Or.inr ⟨a :: l1, e, l2, by rw [hsplit]; rfl, ?_, lt_trans h hlt, ?_, ?_⟩
        · rw [hstep, heq]
        · intro x hx
          rcases List.mem_cons.1 hx with rfl | hx
          · exact hlt
          · exact hl1 x hx
        · intro x hx
          rcases List.mem_cons.1 hx with rfl | hx
          · exact le_of_lt hlt
          · exact hle x (hsplit ▸ hx)
    · have hstep : foldEval f (m, me) (a :: rest) = foldEval f (m, me) rest := by
        simp [foldEval, h]
      rcases ih m me with ⟨heq, hle⟩ | ⟨l1, e, l2, hsplit, heq, hlt, hl1, hle⟩
      · refine Or.inl ⟨by rw [hstep, heq], ?_⟩
        intro x hx
        rcases List.mem_cons.1 hx with rfl | hx
        · omega
        · exact hle x hx
      · refine Or.inr ⟨a :: l1, e, l2, by rw [hsplit]; rfl, ?_, hlt, ?_, ?_⟩
        · rw [hstep, heq]
        · intro x hx
          rcases List.mem_cons.1 hx with rfl | hx
          · omega
          · exact hl1 x hx
        · intro x hx
          rcases List.mem_cons.1 hx with rfl | hx
          · omega
          · exact hle x (hsplit ▸ hx)

/-- C7: during one greedy step, evaluating the marginal gains of the
candidates leaves the graph exactly as it was before the scan: every
tentatively added edge is removed again, and with the loop invariants
of the source (candidate endpoints are nodes, candidates are not yet
edges) the node and edge lists after the whole inner loop are
identical to those before it, so no side effects leak between
candidate evaluations. -/
theorem evalCandidates_restores_graph (T : List (List α)) (objfn ms : Int)
    (me : Option (α × α)) (g : SGraph α) (pool : List (α × α))
    (hc : ∀ e ∈ pool, e.1 ∈ g.nodes ∧ e.2 ∈ g.nodes ∧ hasEdge g e.1 e.2 = false) :
    (evalCandidates T objfn ⟨g, ms, me⟩ pool).g = g := by
  rw [evalCandidates_spec T objfn g pool ms me hc]

/-- C7 witness: with the two candidates of a concrete two-constraint
instance, the inner loop hands back exactly the graph it started
from. -/
theorem evalCandidates_restores_graph_witness :
    (evalCandidates [["LOVE", "HAPPYNESS"], ["HAPPYNESS", "ANGER"]] (-2) 
      ⟨⟨["LOVE", "HAPPYNESS", "ANGER"], []⟩, 0, none⟩
      [("LOVE", "HAPPYNESS"), ("HAPPYNESS", "ANGER")]).g
      = (⟨["LOVE", "HAPPYNESS", "ANGER"], []⟩ : SGraph String) :=
  evalCandidates_restores_graph _ _ _ _ _ _ (by decide)

/-! Helper lemmas about the builder state: every constraint member is
a node of the freshly built graph, the fresh graph has no edges, and
every co-occurring pair is in the fresh pool in some orientation. -/

theorem addNode_mem_nodes (g : SGraph α) (n x : α) (h : x ∈ g.nodes) :
    x ∈ (addNode g n).nodes := by
  by_cases hn : n ∈ g.nodes <;> simp [addNode, hn, h]

theorem addNode_mem_self (g : SGraph α) (n : α) : n ∈ (addNode g n).nodes := by
  by_cases hn : n ∈ g.nodes <;> simp [addNode, hn]

theorem addNode_edges (g : SGraph α) (n : α) : (addNode g n).edges = g.edges := by
  by_cases hn : n ∈ g.nodes <;> simp [addNode, hn]

theorem addNodesOf_mem_nodes (t : List α) : ∀ (g : SGraph α) (x : α),
    x ∈ g.nodes → x ∈ (addNodesOf g t).nodes := by
  induction t with
  | nil => intro g x h; exact h
  | cons y ys ih =>
    intro g x h
    exact ih (addNode g y) x (addNode_mem_nodes g y x h)

theorem addNodesOf_mem_self (t : List α) : ∀ (g : SGraph α) (x : α),
    x ∈ t → x ∈ (addNodesOf g t).nodes := by
  induction t with
  | nil => intro g x h; cases h
  | cons y ys ih =>
    intro g x h
    rcases List.mem_cons.1 h with rfl | h2
    · exact addNodesOf_mem_nodes ys (addNode g x) x (addNode_mem_self g x)
    · exact ih (addNode g y) x h2

theorem addNodesOf_edges (t : List α) : ∀ (g : SGraph α),
    (addNodesOf g t).edges = g.edges := by
  induction t with
  | nil => intro g; rfl
  | cons y ys ih =>
    intro g
    rw [show addNodesOf g (y :: ys) = addNodesOf (addNode g y) ys from rfl,
      ih (addNode g y), addNode_edges]

theorem foldl_addNodesOf_edges (T : List (List α)) : ∀ (g : SGraph α),
    (T.foldl addNodesOf g).edges = g.edges := by
  induction T with
  | nil => intro g; rfl
  | cons t rest ih =>
    intro g
    rw [List.foldl_cons, ih (addNodesOf g t), addNodesOf_edges]

theorem buildGraph_edges (T : List (List α)) : (buildGraph T).edges = [] :=
  foldl_addNodesOf_edges T ⟨[], []⟩

theorem foldl_addNodesOf_mem (T : List (List α)) : ∀ (g : SGraph α) (x : α),
    x ∈ g.nodes → x ∈ (T.foldl addNodesOf g).nodes := by
  induction T with
  | nil => intro g x h; exact h
  | cons t rest ih =>
    intro g x h
    exact ih (addNodesOf g t) x (addNodesOf_mem_nodes t g x h)

theorem buildGraph_mem_nodes (T : List (List α)) (t : List α) (x : α)
    (ht : t ∈ T) (hx : x ∈ t) : x ∈ (buildGraph T).nodes := by
  have main : ∀ (T2 : List (List α)) (g : SGraph α), t ∈ T2 →
      x ∈ (T2.foldl addNodesOf g).nodes := by
    intro T2
    induction T2 with
    | nil => intro g h; cases h
    | cons t2 rest ih =>
      intro g h
      rcases List.mem_cons.1 h with rfl | h2
      · exact foldl_addNodesOf_mem rest (addNodesOf g t) x
          (addNodesOf_mem_self t g x hx)
      · exact ih (addNodesOf g t2) h2
  exact main T ⟨[], []⟩ ht

theorem mem_allpairs (c : List α) (u v : α) (hu : u ∈ c) (hv : v ∈ c) (hne : u ≠ v) :
    (u, v) ∈ allpairs c ∨ (v, u) ∈ allpairs c := by
  induction c with
  | nil => cases hu
  | cons x xs ih =>
    rcases List.mem_cons.1 hu with rfl | hu2
    · rcases List.mem_cons.1 hv with rfl | hv2
      · exact absurd rfl hne
      · exact Or.inl (by
          simp only [allpairs, List.mem_append, List.mem_map]
          exact Or.inl ⟨v, hv2, rfl⟩)
    · rcases List.mem_cons.1 hv with rfl | hv2
      · exact Or.inr (by
          simp only [allpairs, List.mem_append, List.mem_map]
          exact Or.inl ⟨u, hu2, rfl⟩)
      · rcases ih hu2 hv2 with h | h
        · exact Or.inl (by
            simp only [allpairs, List.mem_append]
            exact Or.inr h)
        · exact Or.inr (by
            simp only [allpairs, List.mem_append]
            exact Or.inr h)

theorem poolInsert_mono (acc : List (α × α)) (p q : α × α) (h : q ∈ acc) :
    q ∈ poolInsert acc p := by
  by_cases hc : p ∈ acc ∨ (p.2, p.1) ∈ acc <;> simp [poolInsert, hc, h]

theorem poolInsert_mem_or (acc : List (α × α)) (p : α × α) :
    p ∈ poolInsert acc p ∨ (p.2, p.1) ∈ poolInsert acc p := by
  by_cases hc : p ∈ acc ∨ (p.2, p.1) ∈ acc
  · rcases hc with h | h
    · exact Or.inl (by simp [poolInsert, Or.inl h, h])
    · exact Or.inr (by simp [poolInsert, Or.inr h, h])
  · left
    simp [poolInsert, hc]

theorem foldl_poolInsert_mono (ps : List (α × α)) : ∀ (acc : List (α × α)) (q : α × α),
    q ∈ acc → q ∈ ps.foldl poolInsert acc := by
  induction ps with
  | nil => intro acc q h; exact h
  | cons p rest ih =>
    intro acc q h
    exact ih (poolInsert acc p) q (poolInsert_mono acc p q h)

theorem foldl_poolInsert_estab (ps : List (α × α)) : ∀ (acc : List (α × α)) (p : α × α),
    p ∈ ps → p ∈ ps.foldl poolInsert acc ∨ (p.2, p.1) ∈ ps.foldl poolInsert acc := by
  induction ps with
  | nil => intro acc p h; cases h
  | cons q rest ih =>
    intro acc p h
    rcases List.mem_cons.1 h with rfl | h2
    · rcases poolInsert_mem_or acc p with hm | hm
      · exact Or.inl (foldl_poolInsert_mono rest (poolInsert acc p) p hm)
      · exact Or.inr (foldl_poolInsert_mono rest (poolInsert acc p) (p.2, p.1) hm)
    · exact ih (poolInsert acc q) p h2

theorem buildPool_mem (T : List (List α)) (t : List α) (p : α × α)
    (ht : t ∈ T) (hp : p ∈ allpairs t) :
    p ∈ buildPool T ∨ (p.2, p.1) ∈ buildPool T := by
  have hmono : ∀ (T2 : List (List α)) (acc : List (α × α)) (q : α × α), q ∈ acc →
      q ∈ T2.foldl (fun acc2 t2 => (allpairs t2).foldl poolInsert acc2) acc := by
    intro T2
    induction T2 with
    | nil => intro acc q h; exact h
    | cons t2 rest ih =>
      intro acc q h
      exact ih _ q (foldl_poolInsert_mono (allpairs t2) acc q h)
  have main : ∀ (T2 : List (List α)) (acc : List (α × α)), t ∈ T2 →
      p ∈ T2.foldl (fun acc2 t2 => (allpairs t2).foldl poolInsert acc2) acc ∨
      (p.2, p.1) ∈ T2.foldl (fun acc2 t2 => (allpairs t2).foldl poolInsert acc2) acc := by
    intro T2
    induction T2 with
    | nil => intro acc h; cases h
    | cons t2 rest ih =>
      intro acc h
      rcases List.mem_cons.1 h with rfl | h2
      · rcases foldl_poolInsert_estab (allpairs t) acc p hp with hm | hm
        · exact Or.inl (hmono rest _ p hm)
        · exact Or.inr (hmono rest _ (p.2, p.1) hm)
      · exact ih (((allpairs t2).foldl poolInsert acc)) h2
  exact main T [] ht

/-! Counting lemmas: the component count of a node list is at most the
number of distinct nodes, equals it when the adjacency is empty, and
drops below it when two distinct listed nodes are adjacent. -/

theorem card_insert_erase (x : α) (s : Finset α) :
    (insert x s).card = (s.erase x).card + 1 := by
  by_cases h : x ∈ s
  · rw [Finset.card_insert_of_mem h]
    exact (Finset.card_erase_add_one h).symm
  · rw [Finset.card_insert_of_not_mem h, Finset.erase_eq_of_not_mem h]

theorem countComp_le_card (adj : α → List α) :
    ∀ (fuel : Nat) (l : List α), countComp adj fuel l ≤ l.toFinset.card := by
  intro fuel
  induction fuel with
  | zero =>
    intro l
    cases l <;> simp [countComp]
  | succ k ih =>
    intro l
    cases l with
    | nil => simp [countComp]
    | cons x rest =>
      simp only [countComp, Nat.succ_eq_add_one]
      have hx : x ∈ reach adj (k + 1) [x] [x] :=
        mem_reach adj x (k + 1) [x] [x] (by simp)
      have hsub : (rest.filter
          (fun y => !decide (y ∈ reach adj (k + 1) [x] [x]))).toFinset ⊆
          rest.toFinset.erase x := by
        intro y hy
        simp only [List.mem_toFinset, List.mem_filter, Bool.not_eq_eq_eq_not,
          Bool.not_true, decide_eq_false_iff_not] at hy
        obtain ⟨hyr, hyc⟩ := hy
        exact Finset.mem_erase.2 ⟨fun he => hyc (he ▸ hx), List.mem_toFinset.2 hyr⟩
      have h1 := ih (rest.filter (fun y => !decide (y ∈ reach adj (k + 1) [x] [x])))
      have h2 := Finset.card_le_card hsub
      have h3 : (x :: rest).toFinset.card = (rest.toFinset.erase x).card + 1 := by
        rw [List.toFinset_cons, card_insert_erase]
      omega

theorem reach_eq_of_adj_nil (adj : α → List α) (k : Nat) (x : α) (h : adj x = []) :
    reach adj (k + 1) [x] [x] = [x] := by
  simp [reach, h]

theorem filter_not_mem_singleton_toFinset (x : α) (rest : List α) :
    (rest.filter (fun y => !decide (y ∈ [x]))).toFinset = rest.toFinset.erase x := by
  ext y
  simp only [List.mem_toFinset, List.mem_filter, Bool.not_eq_eq_eq_not, Bool.not_true,
    decide_eq_false_iff_not, List.mem_singleton, Finset.mem_erase]
  tauto

theorem countComp_eq_card_of_adj_nil (adj : α → List α) (hadj : ∀ y, adj y = []) :
    ∀ (fuel : Nat) (l : List α), l.length ≤ fuel →
      countComp adj fuel l = l.toFinset.card := by
  intro fuel
  induction fuel with
  | zero =>
    intro l hl
    have hnil : l = [] := List.eq_nil_of_length_eq_zero (Nat.le_zero.1 hl)
    subst hnil
    simp [countComp]
  | succ k ih =>
    intro l hl
    cases l with
    | nil => simp [countComp]
    | cons x rest =>
      simp only [countComp, Nat.succ_eq_add_one]
      rw [reach_eq_of_adj_nil adj k x (hadj x)]
      have hlen : (rest.filter (fun y => !decide (y ∈ [x]))).length ≤ k := by
        have hf := List.length_filter_le (fun y => !decide (y ∈ [x])) rest
        simp only [List.length_cons] at hl
        omega
      rw [ih _ hlen, filter_not_mem_singleton_toFinset, List.toFinset_cons,
        card_insert_erase]
      omega

theorem mem_reach_adj (adj : α → List α) (k : Nat) (x w : α)
    (hw : w ∈ adj x) (hne : w ≠ x) : w ∈ reach adj (k + 1) [x] [x] := by
  have hmem : w ∈ (([x].map adj).flatten).filter (fun y => !decide (y ∈ [x])) := by
    simp [hw, hne]
  simp only [reach]
  rcases hnn : (([x].map adj).flatten).filter (fun y => !decide (y ∈ [x]))
    with _ | ⟨z, zs⟩
  · rw [hnn] at hmem
    cases hmem
  · rw [hnn] at hmem
    simp only [hnn, List.isEmpty_cons, if_false, Bool.false_eq_true]
    exact mem_reach adj w k (z :: zs) ([x] ++ z :: zs)
      (List.mem_append_right _ hmem)

theorem countComp_cons_bound (adj : α → List α) (k : Nat) (x w : α) (rest : List α)
    (hwr : w ∈ rest) (hwx : w ≠ x)
    (hcomp : w ∈ reach adj (k + 1) [x] [x]) :
    countComp adj (k + 1) (x :: rest) + 1 ≤ (x :: rest).toFinset.card := by
  simp only [countComp, Nat.succ_eq_add_one]
  have hxc : x ∈ reach adj (k + 1) [x] [x] :=
    mem_reach adj x (k + 1) [x] [x] (by simp)
  have hsub : (rest.filter
      (fun y => !decide (y ∈ reach adj (k + 1) [x] [x]))).toFinset ⊆
      (rest.toFinset.erase x).erase w := by
    intro y hy
    simp only [List.mem_toFinset, List.mem_filter, Bool.not_eq_eq_eq_not, Bool.not_true,
      decide_eq_false_iff_not] at hy
    obtain ⟨hyr, hyc⟩ := hy
    exact Finset.mem_erase.2 ⟨fun he => hyc (he ▸ hcomp),
      Finset.mem_erase.2 ⟨fun he => hyc (he ▸ hxc), List.mem_toFinset.2 hyr⟩⟩
  have h1 := countComp_le_card adj k
    (rest.filter (fun y => !decide (y ∈ reach adj (k + 1) [x] [x])))
  have h2 := Finset.card_le_card hsub
  have h3 : (x :: rest).toFinset.card = (rest.toFinset.erase x).card + 1 := by
    rw [List.toFinset_cons, card_insert_erase]
  have hw2 : w ∈ rest.toFinset.erase x :=
    Finset.mem_erase.2 ⟨hwx, List.mem_toFinset.2 hwr⟩
  have h4 := Finset.card_erase_add_one hw2
  omega

theorem countComp_linked_le (adj : α → List α) (u v : α)
    (hne : u ≠ v) (hadju : v ∈ adj u) (hadjv : u ∈ adj v)
    (hoth : ∀ y, y ≠ u → y ≠ v → adj y = []) :
    ∀ (fuel : Nat) (l : List α), l.length ≤ fuel → u ∈ l → v ∈ l →
      countComp adj fuel l + 1 ≤ l.toFinset.card := by
  intro fuel
  induction fuel with
  | zero =>
    intro l hl hu _
    rcases l with _ | ⟨x, rest⟩
    · cases hu
    · simp at hl
  | succ k ih =>
    intro l hl hu hv
    rcases l with _ | ⟨x, rest⟩
    · cases hu
    · by_cases hxu : x = u
      · subst hxu
        have hvr : v ∈ rest := by
          rcases List.mem_cons.1 hv with h | h
          · exact absurd h.symm hne
          · exact h
        exact countComp_cons_bound adj k x v rest hvr (Ne.symm hne)
          (mem_reach_adj adj k x v hadju (Ne.symm hne))
      · by_cases hxv : x = v
        · subst hxv
          have hur : u ∈ rest := by
            rcases List.mem_cons.1 hu with h | h
            · exact absurd h hne
            · exact h
          exact countComp_cons_bound adj k x u rest hur hne
            (mem_reach_adj adj k x u hadjv hne)
        · have hax : adj x = [] :=
            hoth x (fun h => hxu h) (fun h => hxv h)
          simp only [countComp, Nat.succ_eq_add_one]
          rw [reach_eq_of_adj_nil adj k x hax]
          have hur : u ∈ rest := by
            rcases List.mem_cons.1 hu with h | h
            · exact absurd h.symm hxu
            · exact h
          have hvr : v ∈ rest := by
            rcases List.mem_cons.1 hv with h | h
            · exact absurd h.symm hxv
            · exact h
          have huf : u ∈ rest.filter (fun y => !decide (y ∈ [x])) := by
            simp only [List.mem_filter, List.mem_singleton, Bool.not_eq_eq_eq_not,
              Bool.not_true, decide_eq_false_iff_not]
            exact ⟨hur, fun h => hxu h.symm⟩
          have hvf : v ∈ rest.filter (fun y => !decide (y ∈ [x])) := by
            simp only [List.mem_filter, List.mem_singleton, Bool.not_eq_eq_eq_not,
              Bool.not_true, decide_eq_false_iff_not]
            exact ⟨hvr, fun h => hxv h.symm⟩
          have hlen : (rest.filter (fun y => !decide (y ∈ [x]))).length ≤ k := by
            have hf := List.length_filter_le (fun y => !decide (y ∈ [x])) rest
            simp only [List.length_cons] at hl
            omega
          have h5 := ih _ hlen huf hvf
          rw [filter_not_mem_singleton_toFinset] at h5
          have h3 : (x :: rest).toFinset.card = (rest.toFinset.erase x).card + 1 := by
            rw [List.toFinset_cons, card_insert_erase]
          omega

/-! On a freshly built, edgeless iteration graph whose objective is
negative, some pool candidate always has strictly positive marginal
gain: a constraint with two components yields two distinct concepts
whose pair is still in the pool, and adding that edge merges them
without splitting anything else. -/

theorem sum_nonneg_int (l : List Int) (h : ∀ x ∈ l, 0 ≤ x) : 0 ≤ l.sum := by
  induction l with
  | nil => simp
  | cons x xs ih =>
    have hx := h x (List.mem_cons_self _ _)
    have hxs := ih (fun y hy => h y (List.mem_cons_of_mem _ hy))
    simp only [List.sum_cons]
    omega

theorem exists_neg_of_sum_neg (l : List Int) : l.sum < 0 → ∃ x ∈ l, x < 0 := by
  induction l with
  | nil => intro h; simp at h
  | cons x xs ih =>
    intro h
    simp only [List.sum_cons] at h
    by_cases hx : x < 0
    · exact ⟨x, List.mem_cons_self _ _, hx⟩
    · have hxs : xs.sum < 0 := by omega
      obtain ⟨y, hy, hyn⟩ := ih hxs
      exact ⟨y, List.mem_cons_of_mem _ hy, hyn⟩

theorem one_le_sum_int (l : List Int) (h0 : ∀ x ∈ l, 0 ≤ x) (hx : ∃ x ∈ l, 1 ≤ x) :
    1 ≤ l.sum := by
  induction l with
  | nil =>
    obtain ⟨x, hx1, _⟩ := hx
    cases hx1
  | cons y ys ih =>
    have hy0 := h0 y (List.mem_cons_self _ _)
    have hys0 : ∀ x ∈ ys, 0 ≤ x := fun x h2 => h0 x (List.mem_cons_of_mem _ h2)
    have hsum0 : 0 ≤ ys.sum := sum_nonneg_int ys hys0
    simp only [List.sum_cons]
    obtain ⟨x, hxm, hx1⟩ := hx
    rcases List.mem_cons.1 hxm with rfl | hxm2
    · omega
    · have := ih hys0 ⟨x, hxm2, hx1⟩
      omega

theorem sum_map_sub_int {β : Type} (f h : β → Int) (l : List β) :
    (l.map f).sum - (l.map h).sum = (l.map (fun x => f x - h x)).sum := by
  induction l with
  | nil => simp
  | cons x xs ih =>
    simp only [List.map_cons, List.sum_cons]
    omega

theorem countComp_le_one_of_allEq (adj : α → List α) (fuel : Nat) (l : List α)
    (h : ∀ a ∈ l, ∀ b ∈ l, a = b) : countComp adj fuel l ≤ 1 := by
  cases l with
  | nil => simp [countComp]
  | cons x rest =>
    cases fuel with
    | zero => simp [countComp]
    | succ k =>
      simp only [countComp, Nat.succ_eq_add_one]
      have hfe : rest.filter
          (fun y => !decide (y ∈ reach adj (k + 1) [x] [x])) = [] := by
        apply List.filter_eq_nil_iff.2
        intro y hy
        have hyx : y = x :=
          h y (List.mem_cons_of_mem _ hy) x (List.mem_cons_self _ _)
        have hx : x ∈ reach adj (k + 1) [x] [x] :=
          mem_reach adj x (k + 1) [x] [x] (by simp)
        simp [hyx, hx]
      rw [hfe]
      simp [countComp]

theorem exists_two_of_two_le_countComp (adj : α → List α) (fuel : Nat) (l : List α)
    (h : 2 ≤ countComp adj fuel l) : ∃ u ∈ l, ∃ v ∈ l, u ≠ v := by
  by_contra hcon
  push_neg at hcon
  have := countComp_le_one_of_allEq adj fuel l hcon
  omega

theorem nccSub_edgeless (g : SGraph α) (hg : g.edges = []) (c : List α) :
    nccSub g c = (g.nodes.filter (fun n => decide (n ∈ c))).toFinset.card := by
  have hadj : ∀ y, adjIn g (g.nodes.filter (fun n => decide (n ∈ c))) y = [] := by
    intro y
    apply List.filter_eq_nil_iff.2
    intro z _
    simp [hasEdge, hg]
  simp only [nccSub]
  exact countComp_eq_card_of_adj_nil _ hadj _ _ (le_refl _)

theorem addEdge_fresh (g : SGraph α) (e : α × α) (hg : g.edges = [])
    (h1 : e.1 ∈ g.nodes) (h2 : e.2 ∈ g.nodes) :
    addEdge g e = ⟨g.nodes, [e]⟩ := by
  have hg1 : addNode (addNode g e.1) e.2 = g := by simp [addNode, h1, h2]
  have hhe : hasEdge g e.1 e.2 = false := by simp [hasEdge, hg]
  simp only [addEdge, hg1, hhe, Bool.false_eq_true, if_false]
  simp [hg]

theorem nccSub_addEdge_fresh_le (g : SGraph α) (e : α × α) (hg : g.edges = [])
    (h1 : e.1 ∈ g.nodes) (h2 : e.2 ∈ g.nodes) (c : List α) :
    nccSub (addEdge g e) c ≤ nccSub g c := by
  rw [addEdge_fresh g e hg h1 h2, nccSub_edgeless g hg c]
  simp only [nccSub]
  exact countComp_le_card _ _ _

theorem nccSub_addEdge_fresh_lt (g : SGraph α) (e : α × α) (hg : g.edges = [])
    (h1 : e.1 ∈ g.nodes) (h2 : e.2 ∈ g.nodes) (hne : e.1 ≠ e.2) (c : List α)
    (hc1 : e.1 ∈ c) (hc2 : e.2 ∈ c) :
    nccSub (addEdge g e) c + 1 ≤ nccSub g c := by
  rw [addEdge_fresh g e hg h1 h2, nccSub_edgeless g hg c]
  simp only [nccSub]
  apply countComp_linked_le
    (adjIn ⟨g.nodes, [e]⟩ (g.nodes.filter (fun n => decide (n ∈ c)))) e.1 e.2 hne
  · simp only [adjIn, List.mem_filter]
    refine ⟨by simp [List.mem_filter, h2, hc2], ?_⟩
    simp [hasEdge]
  · simp only [adjIn, List.mem_filter]
    refine ⟨by simp [List.mem_filter, h1, hc1], ?_⟩
    simp [hasEdge]
  · intro y hy1 hy2
    apply List.filter_eq_nil_iff.2
    intro z _
    simp only [hasEdge, List.any_cons, List.any_nil, Bool.or_false, decide_eq_true_eq]
    rintro (⟨ha, _⟩ | ⟨_, hb⟩)
    · exact hy1 ha.symm
    · exact hy2 hb.symm
  · exact le_refl _
  · simp [List.mem_filter, h1, hc1]
  · simp [List.mem_filter, h2, hc2]
theorem gain_pos_fresh (g : SGraph α) (T : List (List α)) (e : α × α) (c : List α)
    (hg : g.edges = []) (h1 : e.1 ∈ g.nodes) (h2 : e.2 ∈ g.nodes) (hne : e.1 ≠ e.2)
    (hcT : c ∈ T) (hc1 : e.1 ∈ c) (hc2 : e.2 ∈ c) :
    0 < gain g T e := by
  have hdiff : gain g T e =
      (T.map (fun c2 => (nccSub g c2 : Int) - (nccSub (addEdge g e) c2 : Int))).sum := by
    rw [gain, C_eq_sum, C_eq_sum, sum_map_sub_int]
    congr 1
    apply List.map_congr_left
    intro c2 _
    omega
  have hone : 1 ≤ (T.map (fun c2 =>
      (nccSub g c2 : Int) - (nccSub (addEdge g e) c2 : Int))).sum := by
    apply one_le_sum_int
    · intro x hxm
      obtain ⟨c2, _, rfl⟩ := List.mem_map.1 hxm
      have := nccSub_addEdge_fresh_le g e hg h1 h2 c2
      omega
    · refine ⟨_, List.mem_map_of_mem _ hcT, ?_⟩
      have := nccSub_addEdge_fresh_lt g e hg h1 h2 hne c hc1 hc2
      omega
  omega

theorem buildState_positive_gain (T : List (List α))
    (hneg : C (buildGraph T) (buildGraph T) T < 0) :
    ∃ x ∈ buildPool T, 0 < gain (buildGraph T) T x := by
  have hedge := buildGraph_edges T
  rw [C_eq_sum] at hneg
  obtain ⟨term, htm, htneg⟩ := exists_neg_of_sum_neg _ hneg
  obtain ⟨c, hcT, rfl⟩ := List.mem_map.1 htm
  have hncc : 2 ≤ nccSub (buildGraph T) c := by omega
  simp only [nccSub] at hncc
  obtain ⟨u, hu, v, hv, hne⟩ := exists_two_of_two_le_countComp _ _ _ hncc
  have hu2 := List.mem_filter.1 hu
  have hv2 := List.mem_filter.1 hv
  have hun : u ∈ (buildGraph T).nodes := hu2.1
  have hvn : v ∈ (buildGraph T).nodes := hv2.1
  have huc : u ∈ c := by simpa using hu2.2
  have hvc : v ∈ c := by simpa using hv2.2
  rcases mem_allpairs c u v huc hvc hne with hp | hp
  · rcases buildPool_mem T c (u, v) hcT hp with hq | hq
    · exact ⟨(u, v), hq, gain_pos_fresh _ T (u, v) c hedge hun hvn hne hcT huc hvc⟩
    · exact ⟨(v, u), hq,
        gain_pos_fresh _ T (v, u) c hedge hvn hun (Ne.symm hne) hcT hvc huc⟩
  · rcases buildPool_mem T c (v, u) hcT hp with hq | hq
    · exact ⟨(v, u), hq,
        gain_pos_fresh _ T (v, u) c hedge hvn hun (Ne.symm hne) hcT hvc huc⟩
    · exact ⟨(u, v), hq, gain_pos_fresh _ T (u, v) c hedge hun hvn hne hcT huc hvc⟩

/-- C2: whenever the while-loop body, entered with a strictly negative
objective, commits an edge (returns some), that edge came from the
supplied pool order (the shuffle outcome), its marginal gain is
strictly positive, no pool candidate has a larger gain, every earlier
candidate in evaluation order has a strictly smaller gain (so ties go
to the first in the shuffled order), the committed edge is added to
the graph, and the pool shrinks to the pool with that edge erased,
which no longer contains it and regains nothing.  The hready
hypothesis covers every step the program reaches: at every
within-iteration step after the first, the remembered module-level
max_edge is the edge committed one step earlier, erased from a pool
that never regains pairs and is only permuted by the shuffle, so the
left disjunct holds; at the entry step of each bootstrap iteration the
graph and pool are exactly the builder output (up to the shuffle
permutation), so the right disjunct holds verbatim even though the
module-level max_edge carried over from the previous iteration may
recur in the fresh pool — there buildState_positive_gain shows some
candidate always has strictly positive gain, so the running maximum is
always freshly assigned and the stale edge can never be the one
committed. -/
theorem greedyStep_commits_best_positive (T : List (List α)) (g : SGraph α)
    (pool : List (α × α)) (prev : Option (α × α))
    (g2 : SGraph α) (pool2 : List (α × α)) (e : α × α)
    (hc : ∀ x ∈ pool, x.1 ∈ g.nodes ∧ x.2 ∈ g.nodes ∧ hasEdge g x.1 x.2 = false)
    (hnd : pool.Nodup)
    (hready : (∀ p, prev = some p → p ∉ pool) ∨
      (g = buildGraph T ∧ pool.Perm (buildPool T)))
    (hobj : C g g T < 0)
    (hstep : greedyStep T g pool prev = some (g2, pool2, e)) :
    e ∈ pool ∧ 0 < gain g T e ∧ (∀ x ∈ pool, gain g T x ≤ gain g T e) ∧
    (∃ l1 l2, pool = l1 ++ e :: l2 ∧ ∀ x ∈ l1, gain g T x < gain g T e) ∧
    g2 = addEdge g e ∧ pool2 = pool.erase e ∧ e ∉ pool2 ∧ pool2 ⊆ pool := by
  have hspec := evalCandidates_spec T (C g g T) g pool 0 prev hc
  simp only [greedyStep, hspec] at hstep
  rcases foldEval_spec (fun x => C (addEdge g x) (addEdge g x) T - C g g T) pool 0 prev
    with ⟨heq, hle⟩ | ⟨l1, e0, l2, hsplit, heq, hpos, hl1, hle⟩
  · rcases hready with hprev | ⟨hg, hperm⟩
    · rw [heq] at hstep
      rcases prev with _ | p
      · simp at hstep
      · simp [hprev p rfl] at hstep
    · obtain ⟨x, hxmem, hxpos⟩ := buildState_positive_gain T (hg ▸ hobj)
      have hxpool : x ∈ pool := hperm.mem_iff.2 hxmem
      have hxle : C (addEdge g x) (addEdge g x) T - C g g T ≤ 0 := hle x hxpool
      have hxpos2 : 0 < C (addEdge g x) (addEdge g x) T - C g g T := hg.symm ▸ hxpos
      omega
  · rw [heq] at hstep
    have hmem : e0 ∈ pool := by
      rw [hsplit]; exact List.mem_append_right _ (List.mem_cons_self _ _)
    simp only [hmem, if_true, Option.some.injEq, Prod.mk.injEq] at hstep
    obtain ⟨hg2, hpool2, he⟩ := hstep
    subst he
    refine ⟨hmem, hpos, hle, ⟨l1, l2, hsplit, hl1⟩, hg2.symm, hpool2.symm, ?_, ?_⟩
    · rw [hpool2.symm] at *
      intro hmem2
      exact absurd rfl ((List.Nodup.mem_erase_iff hnd).1 hmem2).1
    · rw [hpool2.symm]
      exact fun x hx => List.mem_of_mem_erase hx

/-- C2 witness: on a concrete three-node iteration-entry instance with
two candidates, with the stale module-level max_edge from a previous
iteration present in the fresh pool, the step entered with objective
-2 still commits the first candidate by fresh assignment, whose gain 1
is positive and maximal, and removes it from the pool. -/
theorem greedyStep_commits_best_positive_witness :
    C (⟨["LOVE", "HAPPYNESS", "ANGER"], []⟩ : SGraph String)
        ⟨["LOVE", "HAPPYNESS", "ANGER"], []⟩
        [["LOVE", "HAPPYNESS"], ["HAPPYNESS", "ANGER"]] < 0 ∧
    (("LOVE", "HAPPYNESS") ∈ [(("LOVE", "HAPPYNESS") : String × String), ("HAPPYNESS", "ANGER")] ∧
     0 < gain (⟨["LOVE", "HAPPYNESS", "ANGER"], []⟩ : SGraph String)
        [["LOVE", "HAPPYNESS"], ["HAPPYNESS", "ANGER"]] ("LOVE", "HAPPYNESS") ∧
     (∀ x ∈ [(("LOVE", "HAPPYNESS") : String × String), ("HAPPYNESS", "ANGER")],
        gain (⟨["LOVE", "HAPPYNESS", "ANGER"], []⟩ : SGraph String)
          [["LOVE", "HAPPYNESS"], ["HAPPYNESS", "ANGER"]] x ≤
        gain (⟨["LOVE", "HAPPYNESS", "ANGER"], []⟩ : SGraph String)
          [["LOVE", "HAPPYNESS"], ["HAPPYNESS", "ANGER"]] ("LOVE", "HAPPYNESS")) ∧
     (∃ l1 l2, [(("LOVE", "HAPPYNESS") : String × String), ("HAPPYNESS", "ANGER")] =
          l1 ++ ("LOVE", "HAPPYNESS") :: l2 ∧
        ∀ x ∈ l1, gain (⟨["LOVE", "HAPPYNESS", "ANGER"], []⟩ : SGraph String)
            [["LOVE", "HAPPYNESS"], ["HAPPYNESS", "ANGER"]] x <
          gain (⟨["LOVE", "HAPPYNESS", "ANGER"], []⟩ : SGraph String)
            [["LOVE", "HAPPYNESS"], ["HAPPYNESS", "ANGER"]] ("LOVE", "HAPPYNESS")) ∧
     (⟨["LOVE", "HAPPYNESS", "ANGER"], [("LOVE", "HAPPYNESS")]⟩ : SGraph String) =
        addEdge ⟨["LOVE", "HAPPYNESS", "ANGER"], []⟩ ("LOVE", "HAPPYNESS") ∧
     [(("HAPPYNESS", "ANGER") : String × String)] =
        [(("LOVE", "HAPPYNESS") : String × String), ("HAPPYNESS", "ANGER")].erase ("LOVE", "HAPPYNESS") ∧
     ("LOVE", "HAPPYNESS") ∉ [(("HAPPYNESS", "ANGER") : String × String)] ∧
     [(("HAPPYNESS", "ANGER") : String × String)] ⊆
        [(("LOVE", "HAPPYNESS") : String × String), ("HAPPYNESS", "ANGER")]) :=
  ⟨by decide,
   greedyStep_commits_best_positive
     [["LOVE", "HAPPYNESS"], ["HAPPYNESS", "ANGER"]]
     ⟨["LOVE", "HAPPYNESS", "ANGER"], []⟩
     [("LOVE", "HAPPYNESS"), ("HAPPYNESS", "ANGER")] (some ("LOVE", "HAPPYNESS"))
     ⟨["LOVE", "HAPPYNESS", "ANGER"], [("LOVE", "HAPPYNESS")]⟩
     [("HAPPYNESS", "ANGER")] ("LOVE", "HAPPYNESS")
     (by decide) (by decide) (Or.inr ⟨by decide, by decide⟩) (by decide) (by decide)⟩

/-- C3: the source has no Stuck state.  In an optimizer state whose
objective is strictly negative but where no candidate assigns
max_edge (here: an empty candidate pool, max_edge still unbound), the
loop body of source lines 120-135 does not report a partial result: it
fails (NameError on max_edge at line 132), modelled by greedyStep
returning none instead of any Stuck outcome. -/
theorem greedyStep_no_positive_gain_errors :
    C gLW gLW [["LOVE", "WORRY"]] < 0 ∧
    greedyStep [["LOVE", "WORRY"]] gLW [] none = none := by decide

/-- C4: edge-frequency aggregation (source lines 139-143) looks an
edge up in the table in both orientations, but the reversed-edge
branch has no guard: a pair absent in both orientations is an
unguarded KeyError, modelled by none — no skip policy and no recorded
diagnostic exist in the source.  The second conjunct shows the
in-vocabulary path: a reversed pair is canonicalized and its entry is
incremented by exactly 1. -/
theorem aggregate_oov_edge_fails :
    aggregateEdges [(("LOVE", "HAPPYNESS"), 0)] [("LOVE", "MELANCHOLY")] = none ∧
    aggregateEdges [(("LOVE", "HAPPYNESS"), 0)] [("HAPPYNESS", "LOVE")] =
      some [(("LOVE", "HAPPYNESS"), 1)] := by decide

/-! Helper lemmas about the frequency aggregation. -/

theorem bump_keys (d : List ((α × α) × Nat)) (k : α × α) :
    (bump d k).map Prod.fst = d.map Prod.fst := by
  simp only [bump, List.map_map]
  apply List.map_congr_left
  intro kc _
  by_cases h : kc.1 = k <;> simp [h]

theorem foldl_aggStep_none (es : List (α × α)) :
    es.foldl aggStep none = none := by
  induction es with
  | nil => rfl
  | cons e rest ih =>
    simp only [List.foldl_cons]
    exact ih

theorem aggregateEdges_some_eq :
    ∀ (es : List (α × α)) (d d2 : List ((α × α) × Nat)),
      aggregateEdges d es = some d2 →
      d2 = d.map (fun kc => (kc.1, kc.2 +
        es.countP (fun e => decide (bumpTarget (d.map Prod.fst) e = some kc.1)))) := by
  intro es
  induction es with
  | nil =>
    intro d d2 h
    simp only [aggregateEdges, List.foldl_nil, Option.some.injEq] at h
    subst h
    simp
  | cons e rest ih =>
    intro d d2 h
    simp only [aggregateEdges, List.foldl_cons] at h
    rcases hbt : bumpTarget (d.map Prod.fst) e with _ | k
    · rw [show aggStep (some d) e = none from by simp [aggStep, hbt]] at h
      rw [foldl_aggStep_none] at h
      exact absurd h (by simp)
    · rw [show aggStep (some d) e = some (bump d k) from by simp [aggStep, hbt]] at h
      have h2 := ih (bump d k) d2 h
      rw [bump_keys] at h2
      rw [h2, bump, List.map_map]
      apply List.map_congr_left
      intro kc _
      simp only [Function.comp_apply]
      by_cases hk : kc.1 = k
      · rw [if_pos hk]
        simp [List.countP_cons, hbt, hk]
        try omega
      · rw [if_neg hk]
        have hne : ¬ (bumpTarget (d.map Prod.fst) e = some kc.1) := by
          rw [hbt]
          intro hcon
          exact hk (Option.some.inj hcon).symm
        simp [List.countP_cons, hne]
        try omega

theorem bumpTarget_eq_some (keys : List (α × α)) (e k : α × α)
    (h : bumpTarget keys e = some k) : e = k ∨ e = (k.2, k.1) := by
  by_cases h1 : e ∈ keys
  · rw [bumpTarget, if_pos h1] at h
    exact Or.inl (Option.some.inj h)
  · by_cases h2 : (e.2, e.1) ∈ keys
    · rw [bumpTarget, if_neg h1, if_pos h2] at h
      have h3 := Option.some.inj h
      right
      subst h3
      simp
    · rw [bumpTarget, if_neg h1, if_neg h2] at h
      exact absurd h (by simp)

theorem countP_le_one_of_pairwise {β : Type} (p : β → Bool) (R : β → β → Prop)
    (hcompat : ∀ a b, R a b → ¬(p a = true ∧ p b = true)) :
    ∀ l : List β, l.Pairwise R → l.countP p ≤ 1 := by
  intro l hl
  induction hl with
  | nil => simp
  | @cons a l2 hab hpl ih =>
    by_cases hp : p a = true
    · have hz : l2.countP p = 0 := by
        apply List.countP_eq_zero.2
        intro b hb hpb
        exact hcompat a b (hab b hb) ⟨hp, hpb⟩
      simp [List.countP_cons, hp, hz]
    · simp only [List.countP_cons, hp, if_false]
      simpa using ih

theorem forall2_map_self {β γ : Type} (P : β → γ → Prop) (f : β → γ)
    (l : List β) (h : ∀ x ∈ l, P x (f x)) : List.Forall₂ P l (l.map f) := by
  induction l with
  | nil => exact List.Forall₂.nil
  | cons x xs ih =>
    exact List.Forall₂.cons (h x (List.mem_cons_self _ _))
      (ih (fun y hy => h y (List.mem_cons_of_mem _ hy)))

theorem forall2_bound_trans {β : Type} (k : Nat)
    (d1 d2 d3 : List ((β × β) × Nat))
    (h12 : List.Forall₂ (fun a b => b.1 = a.1 ∧ a.2 ≤ b.2 ∧ b.2 ≤ a.2 + 1) d1 d2)
    (h23 : List.Forall₂ (fun a b => b.1 = a.1 ∧ a.2 ≤ b.2 ∧ b.2 ≤ a.2 + k) d2 d3) :
    List.Forall₂ (fun a b => b.1 = a.1 ∧ a.2 ≤ b.2 ∧ b.2 ≤ a.2 + (k + 1)) d1 d3 := by
  induction h12 generalizing d3 with
  | nil =>
    cases h23
    exact List.Forall₂.nil
  | @cons a b l1 l2 hab h ih =>
    cases h23 with
    | @cons _ c _ l3 hbc h2 =>
      obtain ⟨he1, hle1, hup1⟩ := hab
      obtain ⟨he2, hle2, hup2⟩ := hbc
      exact List.Forall₂.cons ⟨he2.trans he1, by omega, by omega⟩ (ih _ h2)

theorem aggregateEdges_forall2 (d d2 : List ((α × α) × Nat)) (es : List (α × α))
    (hpw : es.Pairwise (fun a b => a ≠ b ∧ a ≠ (b.2, b.1)))
    (h : aggregateEdges d es = some d2) :
    List.Forall₂ (fun kc kd => kd.1 = kc.1 ∧ kc.2 ≤ kd.2 ∧ kd.2 ≤ kc.2 + 1) d d2 := by
  rw [aggregateEdges_some_eq es d d2 h]
  apply forall2_map_self
  intro kc _
  refine ⟨rfl, Nat.le_add_right _ _, ?_⟩
  have hcnt : es.countP
      (fun e => decide (bumpTarget (d.map Prod.fst) e = some kc.1)) ≤ 1 := by
    apply countP_le_one_of_pairwise _ (fun a b => a ≠ b ∧ a ≠ (b.2, b.1)) ?_ es hpw
    intro a b hab hpab
    obtain ⟨hpa, hpb⟩ := hpab
    have ha := of_decide_eq_true hpa
    have hb := of_decide_eq_true hpb
    rcases bumpTarget_eq_some _ _ _ ha with ha1 | ha2 <;>
      rcases bumpTarget_eq_some _ _ _ hb with hb1 | hb2
    · exact hab.1 (ha1.trans hb1.symm)
    · exact hab.2 (by rw [ha1, hb2])
    · exact hab.2 (by rw [ha2, hb1])
    · exact hab.1 (ha2.trans hb2.symm)
  omega

theorem foldl_iter_none (its : List (List (α × α))) :
    its.foldl (fun od es => od.bind (fun d2 => aggregateEdges d2 es)) none = none := by
  induction its with
  | nil => rfl
  | cons es rest ih =>
    simp only [List.foldl_cons]
    exact ih

/-- C5: processing bootstrap iterations never decreases a frequency
entry, raises each entry by at most 1 per iteration, and after
processing a list of iterations each entry has grown by at most the
number of iterations (so an entry starting at 0 is bounded by the
iteration count).  The hypothesis on each edge list — no two listed
edges coincide as unordered pairs — holds for every networkx edge
list, which stores each undirected edge once. -/
theorem edgeFrequencyTable_monotone_bounded (d dN : List ((α × α) × Nat))
    (its : List (List (α × α)))
    (hok : aggregateIters d its = some dN)
    (hpw : ∀ es ∈ its, es.Pairwise (fun a b => a ≠ b ∧ a ≠ (b.2, b.1))) :
    List.Forall₂ (fun kc kd => kd.1 = kc.1 ∧ kc.2 ≤ kd.2 ∧ kd.2 ≤ kc.2 + its.length) d dN ∧
    (∀ (d1 d2 : List ((α × α) × Nat)) (es : List (α × α)),
      es.Pairwise (fun a b => a ≠ b ∧ a ≠ (b.2, b.1)) →
      aggregateEdges d1 es = some d2 →
      List.Forall₂ (fun kc kd => kd.1 = kc.1 ∧ kc.2 ≤ kd.2 ∧ kd.2 ≤ kc.2 + 1) d1 d2) := by
  have main : ∀ (its2 : List (List (α × α))) (d0 : List ((α × α) × Nat)),
      (∀ es ∈ its2, es.Pairwise (fun a b => a ≠ b ∧ a ≠ (b.2, b.1))) →
      aggregateIters d0 its2 = some dN →
      List.Forall₂ (fun kc kd => kd.1 = kc.1 ∧ kc.2 ≤ kd.2 ∧ kd.2 ≤ kc.2 + its2.length)
        d0 dN := by
    intro its2
    induction its2 with
    | nil =>
      intro d0 _ h0
      simp only [aggregateIters, List.foldl_nil, Option.some.injEq] at h0
      subst h0
      simp only [List.length_nil]
      exact List.forall₂_same.2 (fun a _ => ⟨rfl, le_refl _, by omega⟩)
    | cons es rest ih =>
      intro d0 hp h0
      have hcons : aggregateIters d0 (es :: rest) =
          rest.foldl (fun od es2 => od.bind (fun d2 => aggregateEdges d2 es2))
            (aggregateEdges d0 es) := rfl
      rcases hmid : aggregateEdges d0 es with _ | dmid
      · rw [hcons, hmid, foldl_iter_none] at h0
        exact absurd h0 (by simp)
      · rw [hcons, hmid] at h0
        have h1 := aggregateEdges_forall2 d0 dmid es (hp es (List.mem_cons_self _ _)) hmid
        have h2 := ih dmid (fun x hx => hp x (List.mem_cons_of_mem _ hx)) h0
        have h3 := forall2_bound_trans rest.length d0 dmid dN h1 h2
        simpa using h3
  exact ⟨main its d hpw hok,
    fun d1 d2 es hp h => aggregateEdges_forall2 d1 d2 es hp h⟩

/-- C5 witness: starting from a zeroed single-entry table, two
iterations each containing the LOVE-HAPPYNESS pair (once per
orientation) raise the entry to 2; the bounds of the theorem hold. -/
theorem edgeFrequencyTable_monotone_bounded_witness :
    List.Forall₂
      (fun kc kd => kd.1 = kc.1 ∧ kc.2 ≤ kd.2 ∧
        kd.2 ≤ kc.2 + [[(("LOVE", "HAPPYNESS") : String × String)], [("HAPPYNESS", "LOVE")]].length)
      [((("LOVE", "HAPPYNESS") : String × String), 0)] [(("LOVE", "HAPPYNESS"), 2)] ∧
    (∀ (d1 d2 : List (((String × String)) × Nat)) (es : List (String × String)),
      es.Pairwise (fun a b => a ≠ b ∧ a ≠ (b.2, b.1)) →
      aggregateEdges d1 es = some d2 →
      List.Forall₂ (fun kc kd => kd.1 = kc.1 ∧ kc.2 ≤ kd.2 ∧ kd.2 ≤ kc.2 + 1) d1 d2) :=
  edgeFrequencyTable_monotone_bounded
    [((("LOVE", "HAPPYNESS") : String × String), 0)] [(("LOVE", "HAPPYNESS"), 2)]
    [[("LOVE", "HAPPYNESS")], [("HAPPYNESS", "LOVE")]]
    (by decide) (by decide)

theorem finalize_fold_eq :
    ∀ (d : List ((String × String) × Nat)) (gw : SGraphW String)
      (imp : List (String × String)),
      (∀ kc ∈ d, kc.1.1 ∈ gw.nodes ∧ kc.1.2 ∈ gw.nodes) →
      (∀ kc ∈ d, ∀ q ∈ gw.edges,
        ¬((q.1.1 = kc.1.1 ∧ q.1.2 = kc.1.2) ∨ (q.1.1 = kc.1.2 ∧ q.1.2 = kc.1.1))) →
      d.Pairwise (fun a b => a.1 ≠ b.1 ∧ a.1 ≠ (b.1.2, b.1.1)) →
      d.foldl finalizeStep (gw, imp) =
        (⟨gw.nodes, gw.edges ++
            (d.filter (fun kc => decide (250 ≤ kc.2))).map
              (fun kc => (kc.1, (kc.2 : ℚ) / 200))⟩,
         imp ++ (d.filter (fun kc => decide (500 < kc.2))).map Prod.fst) := by
  intro d
  induction d with
  | nil =>
    intro gw imp _ _ _
    simp
  | cons kc rest ih =>
    intro gw imp hn hdisj hpw
    have hnrest : ∀ x ∈ rest, x.1.1 ∈ gw.nodes ∧ x.1.2 ∈ gw.nodes :=
      fun x hx => hn x (List.mem_cons_of_mem _ hx)
    have hdrest : ∀ x ∈ rest, ∀ q ∈ gw.edges,
        ¬((q.1.1 = x.1.1 ∧ q.1.2 = x.1.2) ∨ (q.1.1 = x.1.2 ∧ q.1.2 = x.1.1)) :=
      fun x hx => hdisj x (List.mem_cons_of_mem _ hx)
    have hhead := List.pairwise_cons.1 hpw
    obtain ⟨hrel, hpwrest⟩ := hhead
    by_cases h250 : kc.2 < 250
    · have hf1 : (decide (250 ≤ kc.2)) = false := by
        simp only [decide_eq_false_iff_not]
        omega
      have hf2 : (decide (500 < kc.2)) = false := by
        simp only [decide_eq_false_iff_not]
        omega
      simp only [List.foldl_cons, finalizeStep, if_pos h250, List.filter_cons, hf1, hf2,
        Bool.false_eq_true, if_false]
      exact ih gw imp hnrest hdrest hpwrest
    · obtain ⟨hk1, hk2⟩ := hn kc (List.mem_cons_self _ _)
      have hne : hasEdgeW gw kc.1.1 kc.1.2 = false := by
        simp only [hasEdgeW, List.any_eq_false, decide_eq_true_eq]
        exact fun q hq => hdisj kc (List.mem_cons_self _ _) q hq
      have hadd : addEdgeW gw kc.1 ((kc.2 : ℚ) / 200) =
          ⟨gw.nodes, gw.edges ++ [(kc.1, (kc.2 : ℚ) / 200)]⟩ := by
        simp only [addEdgeW, addNodeW, hk1, hk2, if_pos, hne]
        simp
      have hgw2 : ∀ x ∈ rest, ∀ q ∈ gw.edges ++ [(kc.1, (kc.2 : ℚ) / 200)],
          ¬((q.1.1 = x.1.1 ∧ q.1.2 = x.1.2) ∨ (q.1.1 = x.1.2 ∧ q.1.2 = x.1.1)) := by
        intro x hx q hq
        rcases List.mem_append.1 hq with hq1 | hq2
        · exact hdrest x hx q hq1
        · have hq3 : q = (kc.1, (kc.2 : ℚ) / 200) := by simpa using hq2
          subst hq3
          obtain ⟨hne1, hne2⟩ := hrel x hx
          rintro (⟨ha, hb⟩ | ⟨ha, hb⟩)
          · exact hne1 (Prod.ext ha hb)
          · exact hne2 (Prod.ext ha hb)
      have hf1 : (decide (250 ≤ kc.2)) = true := by
        simp only [decide_eq_true_eq]
        omega
      simp only [List.foldl_cons, finalizeStep, if_neg h250, List.filter_cons, hf1, if_true]
      rw [hadd]
      by_cases h500 : 500 < kc.2
      · have hf2 : (decide (500 < kc.2)) = true := by
          simp only [decide_eq_true_eq]
          exact h500
        rw [if_pos h500]
        rw [ih ⟨gw.nodes, gw.edges ++ [(kc.1, (kc.2 : ℚ) / 200)]⟩ (imp ++ [kc.1])
          hnrest hgw2 hpwrest]
        simp only [hf2, if_true, List.map_cons]
        simp
      · have hf2 : (decide (500 < kc.2)) = false := by
          simp only [decide_eq_false_iff_not]
          exact h500
        rw [if_neg h500]
        rw [ih ⟨gw.nodes, gw.edges ++ [(kc.1, (kc.2 : ℚ) / 200)]⟩ imp
          hnrest hgw2 hpwrest]
        simp only [hf2, Bool.false_eq_true, if_false, List.map_cons]
        simp

/-- C6: the final map is built over the fixed global twelve-concept
node list whatever the table contents; a canonical pair is an edge of
the final map exactly when its aggregated frequency is at least 250,
with weight frequency / 200; and a pair is recorded among the
important links exactly when its frequency exceeds 500.  In
particular a frequency of 249 is excluded and one of 250 included.
The hypotheses hold for the program table: its keys are the pairs of
the fixed concept list, pairwise distinct as unordered pairs. -/
theorem finalize_threshold_spec (d : List ((String × String) × Nat))
    (hkeys : ∀ kc ∈ d, kc.1.1 ∈ nodes ∧ kc.1.2 ∈ nodes)
    (hpw : d.Pairwise (fun a b => a.1 ≠ b.1 ∧ a.1 ≠ (b.1.2, b.1.1))) :
    (finalize d).1.nodes = nodes ∧
    (∀ p w, ((p, w) ∈ (finalize d).1.edges ↔
      ∃ c, (p, c) ∈ d ∧ 250 ≤ c ∧ w = (c : ℚ) / 200)) ∧
    (∀ p, (p ∈ (finalize d).2 ↔ ∃ c, (p, c) ∈ d ∧ 500 < c)) := by
  have hfold := finalize_fold_eq d ⟨nodes, []⟩ [] hkeys (by intro kc _ q hq; simp at hq) hpw
  have hfin : finalize d =
      (⟨nodes, (d.filter (fun kc => decide (250 ≤ kc.2))).map
          (fun kc => (kc.1, (kc.2 : ℚ) / 200))⟩,
       (d.filter (fun kc => decide (500 < kc.2))).map Prod.fst) := by
    rw [finalize, hfold]
    simp
  rw [hfin]
  refine ⟨rfl, ?_, ?_⟩
  · intro p w
    simp only [List.mem_map, List.mem_filter, decide_eq_true_eq, Prod.mk.injEq]
    constructor
    · rintro ⟨kc, ⟨hmem, hc⟩, hp, hw⟩
      exact ⟨kc.2, by rw [← hp]; simpa using hmem, hc, hw.symm⟩
    · rintro ⟨c, hmem, hc, hw⟩
      exact ⟨(p, c), ⟨hmem, hc⟩, rfl, hw.symm⟩
  · intro p
    simp only [List.mem_map, List.mem_filter, decide_eq_true_eq]
    constructor
    · rintro ⟨kc, ⟨hmem, hc⟩, hp⟩
      exact ⟨kc.2, by rw [← hp]; simpa using hmem, hc⟩
    · rintro ⟨c, hmem, hc⟩
      exact ⟨(p, c), ⟨hmem, hc⟩, rfl⟩

/-- C6 witness: a three-entry table with frequencies 249, 250 and 501
satisfies the hypotheses; the theorem fixes the final node list to the
global concept list, excludes the 249 edge, includes the 250 edge at
weight 250 / 200, and marks exactly the 501 pair important. -/
theorem finalize_threshold_spec_witness :
    (finalize [((("LOVE", "HAPPYNESS") : String × String), 249),
        (("LOVE", "ANGER"), 250), (("LOVE", "FEAR"), 501)]).1.nodes = nodes ∧
    (∀ p w, ((p, w) ∈ (finalize [((("LOVE", "HAPPYNESS") : String × String), 249),
        (("LOVE", "ANGER"), 250), (("LOVE", "FEAR"), 501)]).1.edges ↔
      ∃ c : Nat, (p, c) ∈ [((("LOVE", "HAPPYNESS") : String × String), 249),
        (("LOVE", "ANGER"), 250), (("LOVE", "FEAR"), 501)] ∧ 250 ≤ c ∧ w = (c : ℚ) / 200)) ∧
    (∀ p, (p ∈ (finalize [((("LOVE", "HAPPYNESS") : String × String), 249),
        (("LOVE", "ANGER"), 250), (("LOVE", "FEAR"), 501)]).2 ↔
      ∃ c : Nat, (p, c) ∈ [((("LOVE", "HAPPYNESS") : String × String), 249),
        (("LOVE", "ANGER"), 250), (("LOVE", "FEAR"), 501)] ∧ 500 < c)) :=
  finalize_threshold_spec
    [((("LOVE", "HAPPYNESS") : String × String), 249),
     (("LOVE", "ANGER"), 250), (("LOVE", "FEAR"), 501)]
    (by decide) (by decide)

/-- C8: invoked without the single positional argument, the source
prints its usage hint but does not exit: the else branch of lines
65-68 only prints, no exit call exists, so the bootstrap loop is still
entered and the later open(sys.argv 1) reference is out of bounds
(IndexError), modelled by fileRef = none with aborted = false.  The
claimed usage-and-nonzero-exit behavior is absent from the code. -/
theorem cli_missing_arg_continues :
    cliStartup ["regier-adapted.py"] =
      { usageShown := true, aborted := false, fileRef := none } := by decide

/-- C9: the run is a pure function of the corpus and of the random
outcomes.  Fixing the seed fixes the language draws of line 80 and the
shuffles of line 123; with those outcomes equal pointwise, two runs
return the same final map: same node list, same weighted edge list,
same important-link list. -/
theorem runProgram_deterministic (corpus : List (String × String × List String))
    (r1 r2 : Randomness)
    (hd : ∀ i, r1.draws i = r2.draws i)
    (hs : ∀ i j l, r1.shuffles i j l = r2.shuffles i j l) :
    runProgram corpus r1 = runProgram corpus r2 := by
  have h1 : r1.draws = r2.draws := funext hd
  have h2 : r1.shuffles = r2.shuffles :=
    funext (fun i => funext (fun j => funext (fun l => hs i j l)))
  cases r1
  cases r2
  simp only at h1 h2
  rw [h1, h2]

/-- C9 witness: a concrete randomness source compared with itself
satisfies the hypotheses and yields the same final map. -/
theorem runProgram_deterministic_witness :
    runProgram [] ⟨fun _ => [], fun _ _ l => l⟩ =
      runProgram [] ⟨fun _ => [], fun _ _ l => l⟩ :=
  runProgram_deterministic [] ⟨fun _ => [], fun _ _ l => l⟩ ⟨fun _ => [], fun _ _ l => l⟩
    (fun _ => rfl) (fun _ _ _ => rfl)
